import Mathlib

set_option autoImplicit false

/-! Shallow embedding of the V2 chunk codec pipeline of `zarr/codecs/_v2.py`:
the classes `V2Compressor` and `V2Filters`, together with the fragments of
numpy and `numcodecs.compat` behaviour (`ravel`, `reshape`, `view`,
`tobytes`, `ensure_ndarray`, `ensure_bytes`, the contiguity flags) that the
two codecs rely on.

Modelling conventions:
* A numpy array is `NDArray`: a dtype (a name string plus the element byte
  width), a logical shape, a memory-layout flag, and the list of elements in
  row-major (C) logical order, each element being its list of bytes.
* The `Buffer` / `NDBuffer` wrappers of the host code are identified with
  the byte list / `NDArray` they wrap: `Buffer.from_bytes`,
  `Buffer.as_array_like`, `NDBuffer.from_numpy_array` and
  `NDBuffer.as_numpy_array` are identities and are elided.
* `numcodecs.get_codec` resolves a JSON config to a codec object through a
  registry that is external to this repository; a stored config is
  therefore modelled directly as the codec it resolves to, that is, a pair
  of transform functions (`CompCodec` composed with
  `ensure_bytes`/`ensure_ndarray`, `FilterCodec` array to array).
* `await to_thread f x` has the value `f x`: offloading to the worker pool
  does not change the value computed, and no claim settled here concerns
  scheduling.
* Python exceptions (`view`/`reshape` errors, `NotImplementedError`, the
  `TypeError` from iterating `None`) are modelled with `Except String`. -/

/-- The `order` field of an `ArraySpec`: the linearization convention,
`"C"` (row-major) or `"F"` (column-major). -/
inductive MemOrder where
  | C
  | F
  deriving DecidableEq

/-- Memory layout of a numpy array's backing buffer, as reported by
`flags.c_contiguous` / `flags.f_contiguous`: C-contiguous, F-contiguous
(and not C), or neither. -/
inductive Layout where
  | C
  | F
  | NonContig
  deriving DecidableEq

/-- A numpy dtype: its `str(...)` name and its element size in bytes. -/
structure DType where
  name : String
  itemsize : Nat
  deriving DecidableEq

/-- A numpy ndarray: dtype, logical shape, memory-layout flag, and the
elements in row-major logical order, each element given by its bytes. -/
structure NDArray where
  dtype : DType
  shape : List Nat
  layout : Layout
  data : List (List Nat)
  deriving DecidableEq

/-- The fields of `zarr.common.ArraySpec` read by `_v2.py`: `shape`,
`dtype` and `order`. -/
structure ArraySpec where
  shape : List Nat
  dtype : DType
  order : MemOrder
  deriving DecidableEq

/-- A chunk's serialized byte sequence (the content of a `Buffer`). -/
abbrev Buffer := List Nat

/-- The numpy `uint8` dtype, the dtype of a raw byte view. -/
def uint8dt : DType := ⟨"uint8", 1⟩

/-- Row-major (C) linear position of a multi-index in the given shape:
the last axis varies fastest. -/
def cPos : List Nat → List Nat → Nat
  | _ :: ds, i :: is => i * ds.prod + cPos ds is
  | _, _ => 0

/-- Column-major (F) linear position of a multi-index in the given shape:
the first axis varies fastest. -/
def fPos : List Nat → List Nat → Nat
  | d :: ds, i :: is => i + d * fPos ds is
  | _, _ => 0

/-- Multi-index of the `p`-th element in row-major enumeration order. -/
def multiIdxC : List Nat → Nat → List Nat
  | [], _ => []
  | _ :: ds, p => p / ds.prod :: multiIdxC ds (p % ds.prod)

/-- Multi-index of the `k`-th element in column-major enumeration order. -/
def multiIdxF : List Nat → Nat → List Nat
  | [], _ => []
  | d :: ds, k => k % d :: multiIdxF ds (k / d)

/-- Read the elements of an array of shape `s`, stored as `d` in row-major
logical order, in the index order named by `o` (numpy's reading step of
`ravel(order=o)` / `reshape(..., order=o)`). -/
def toListO (o : MemOrder) (s : List Nat) (d : List (List Nat)) : List (List Nat) :=
  match o with
  | .C => d
  | .F => (List.range s.prod).map fun k => d.getD (cPos s (multiIdxF s k)) []

/-- Place a flat element sequence `xs` into an array of shape `s` filling in
the index order named by `o`, returning the row-major logical element list
(numpy's writing step of `reshape(..., order=o)`). -/
def fromListO (o : MemOrder) (s : List Nat) (xs : List (List Nat)) : List (List Nat) :=
  match o with
  | .C => xs
  | .F => (List.range s.prod).map fun p => xs.getD (fPos s (multiIdxC s p)) []

/-- Fuel-driven worker for `chunkBytes`; the fuel is an upper bound on the
list length, so it never runs out on the intended calls. -/
def chunkBytesAux (k : Nat) : Nat → List Nat → List (List Nat)
  | _, [] => []
  | 0, _ :: _ => []
  | fuel + 1, x :: xs => ((x :: xs).take k) :: chunkBytesAux k fuel ((x :: xs).drop k)

/-- Split a flat byte list into consecutive chunks of `k` bytes (the
element boundaries of a typed view over a byte buffer). -/
def chunkBytes (k : Nat) (xs : List Nat) : List (List Nat) :=
  if k = 0 then [] else chunkBytesAux k xs.length xs

/-- numpy `a.ravel(order=o)`: the flattened, contiguous one-dimensional
array whose elements are read from `a` in index order `o`. -/
def NDArray.ravel (a : NDArray) (o : MemOrder) : NDArray :=
  ⟨a.dtype, [a.shape.prod], .C, toListO o a.shape a.data⟩

/-- numpy `a.reshape(s, order=o)`: fails when the element counts disagree,
otherwise reads the elements of `a` in index order `o` and refills the new
shape in index order `o`. -/
def NDArray.reshape (a : NDArray) (s : List Nat) (o : MemOrder) : Except String NDArray :=
  if s.prod ≠ a.shape.prod then
    .error "ValueError: cannot reshape array"
  else
    .ok ⟨a.dtype, s, .C, fromListO o s (toListO o a.shape a.data)⟩

/-- numpy `a.tobytes(order=ascii_A)`, the conversion done by
`numcodecs.compat.ensure_bytes`: the backing bytes in F order when the
array is F-contiguous, in C order otherwise (non-contiguous arrays are
gathered into C order). -/
def NDArray.tobytesA (a : NDArray) : List Nat :=
  match a.layout with
  | .F => (toListO .F a.shape a.data).flatten
  | _ => a.data.flatten

/-- numpy `a.view(d)`: reinterpret the same bytes under dtype `d`. The
byte size of the last axis must be divisible by the new itemsize (a 0-d
array additionally requires an unchanged itemsize); the last axis length
is rescaled and the bytes are regrouped, never converted. -/
def NDArray.view (a : NDArray) (d : DType) : Except String NDArray :=
  if d.itemsize = 0 then
    .error "ValueError: data type must not be zero-sized"
  else if a.shape = [] then
    if d.itemsize = a.dtype.itemsize then
      .ok ⟨d, [], a.layout, chunkBytes d.itemsize a.data.flatten⟩
    else
      .error "ValueError: itemsize of a 0-d array view must be unchanged"
  else if a.shape.getLastD 0 * a.dtype.itemsize % d.itemsize ≠ 0 then
    .error "ValueError: the new dtype size must divide the byte size of the last axis"
  else
    .ok ⟨d, a.shape.dropLast ++ [a.shape.getLastD 0 * a.dtype.itemsize / d.itemsize],
      a.layout, chunkBytes d.itemsize a.data.flatten⟩

/-- numpy `a.copy(order=ascii_A)`: an owned contiguous copy preserving the
existing order when the source is F-contiguous, C order otherwise. The
logical content is unchanged. -/
def NDArray.copyA (a : NDArray) : NDArray :=
  { a with layout := if a.layout = .F then .F else .C }

/-- Model of `numcodecs.compat.ensure_ndarray` applied to a raw byte buffer
(`Buffer.as_array_like`): the one-dimensional `uint8` array over those
bytes. -/
def ensureNDArrayBytes (b : Buffer) : NDArray :=
  ⟨uint8dt, [b.length], .C, b.map fun x => [x]⟩

/-- A resolved compressor codec: `encodeFn` models
`ensure_bytes (compressor.encode arr)` and `decodeFn` models
`ensure_ndarray (compressor.decode bytes)`. -/
structure CompCodec where
  encodeFn : NDArray → Buffer
  decodeFn : Buffer → NDArray

/-- A resolved filter codec: the forward (`encode`) and inverse (`decode`)
array-to-array transforms. -/
structure FilterCodec where
  encodeFn : NDArray → NDArray
  decodeFn : NDArray → NDArray

/-- The `V2Compressor` dataclass: at most one compressor config (already
resolved, see the module docstring). -/
structure V2Compressor where
  compressor : Option CompCodec

/-- The `V2Filters` dataclass: the filter config list; the decode path
guards against the list being `None`, so the field is an `Option`. -/
structure V2Filters where
  filters : Option (List FilterCodec)

/-- The array produced inside `V2Compressor.decode_single` before dtype
reconciliation: the decompressed array when a compressor is configured,
otherwise the raw bytes viewed as a `uint8` array. -/
def rawDecodedArray (self : V2Compressor) (b : Buffer) : NDArray :=
  match self.compressor with
  | some comp => comp.decodeFn b
  | none => ensureNDArrayBytes b

/-- Embeds `V2Compressor.decode_single`: short-circuit on the `None` sentinel,
decompress (or view raw bytes), then reconcile the dtype by a bit-cast
`view` when the dtype names differ. -/
def V2Compressor.decode_single (self : V2Compressor) (chunk_bytes : Option Buffer)
    (chunk_spec : ArraySpec) : Except String (Option NDArray) :=
  match chunk_bytes with
  | none => .ok none
  | some b =>
      let arr := rawDecodedArray self b
      if arr.dtype.name ≠ chunk_spec.dtype.name then
        (arr.view chunk_spec.dtype).map some
      else
        .ok (some arr)

/-- Embeds `V2Compressor.encode_single`: with a compressor, first copy the array
when it is neither C- nor F-contiguous, then compress; without one, return
the raw bytes of the array. -/
def V2Compressor.encode_single (self : V2Compressor) (chunk_array : NDArray)
    (_chunk_spec : ArraySpec) : Buffer :=
  match self.compressor with
  | some comp =>
      let arr := if chunk_array.layout = .NonContig then chunk_array.copyA else chunk_array
      comp.encodeFn arr
  | none => chunk_array.tobytesA

/-- Embeds `V2Compressor.compute_encoded_size`: unconditionally raises
`NotImplementedError`. -/
def V2Compressor.compute_encoded_size (_self : V2Compressor)
    (_input_byte_length : Nat) (_chunk_spec : ArraySpec) : Except String Nat :=
  .error "NotImplementedError"

/-- The forward filter loop of `V2Filters.encode_single`: apply each
filter's forward transform in list order. -/
def applyFilters (fs : List FilterCodec) (a : NDArray) : NDArray :=
  fs.foldl (fun acc f => f.encodeFn acc) a

/-- The inverse filter loop of `V2Filters.decode_single`: iterate
`filters[::-1]`, applying each filter's inverse transform. -/
def applyInvFilters (fs : List FilterCodec) (a : NDArray) : NDArray :=
  fs.reverse.foldl (fun acc f => f.decodeFn acc) a

/-- The guarded inverse filter loop: `if self.filters is not None`, run the
reversed loop, else leave the array untouched. -/
def applyInvFiltersOpt : Option (List FilterCodec) → NDArray → NDArray
  | some fs, a => applyInvFilters fs a
  | none, a => a

/-- Embeds `V2Filters.decode_single`: run the inverse filters (when the list is
not `None`) and then reconcile the shape by `reshape(spec.shape,
order=spec.order)` when it differs from the spec. -/
def V2Filters.decode_single (self : V2Filters) (chunk_array : NDArray)
    (chunk_spec : ArraySpec) : Except String NDArray :=
  let arr := applyInvFiltersOpt self.filters chunk_array
  if arr.shape ≠ chunk_spec.shape then
    arr.reshape chunk_spec.shape chunk_spec.order
  else
    .ok arr

/-- Embeds `V2Filters.encode_single`: ravel the chunk in `spec.order` and apply
the forward filters in list order. Iterating a `None` filter list raises
`TypeError` (there is no guard on this path). -/
def V2Filters.encode_single (self : V2Filters) (chunk_array : NDArray)
    (chunk_spec : ArraySpec) : Except String NDArray :=
  match self.filters with
  | none => .error "TypeError: NoneType object is not iterable"
  | some fs => .ok (applyFilters fs (chunk_array.ravel chunk_spec.order))

/-- Embeds `V2Filters.compute_encoded_size`: unconditionally raises
`NotImplementedError`. -/
def V2Filters.compute_encoded_size (_self : V2Filters)
    (_input_byte_length : Nat) (_chunk_spec : ArraySpec) : Except String Nat :=
  .error "NotImplementedError"

/-- The full V2 encode pipeline for one chunk: the filter stage followed by
the compressor stage. -/
def fullEncode (f : V2Filters) (c : V2Compressor) (chunk : NDArray)
    (spec : ArraySpec) : Except String Buffer :=
  (f.encode_single chunk spec).map fun arr => c.encode_single arr spec

/-- The full V2 decode pipeline for one chunk: the compressor stage
followed by the filter stage, propagating the `None` sentinel. -/
def fullDecode (f : V2Filters) (c : V2Compressor) (b : Option Buffer)
    (spec : ArraySpec) : Except String (Option NDArray) := do
  match ← c.decode_single b spec with
  | none => pure none
  | some arr => do
      let r ← f.decode_single arr spec
      pure (some r)

/-- Invariant satisfied by every intermediate array of a well-behaved V2
pipeline run for element type `dt`: one-dimensional, C-contiguous, of dtype
`dt`, with each element exactly `dt.itemsize` bytes wide. -/
def GoodArr (dt : DType) (a : NDArray) : Prop :=
  a.dtype = dt ∧ a.layout = .C ∧ a.shape = [a.data.length]
    ∧ ∀ e ∈ a.data, e.length = dt.itemsize

instance (dt : DType) (a : NDArray) : Decidable (GoodArr dt a) :=
  inferInstanceAs (Decidable (a.dtype = dt ∧ a.layout = .C ∧ a.shape = [a.data.length]
    ∧ ∀ e ∈ a.data, e.length = dt.itemsize))

/-- Condition under which `NDArray.view` succeeds: a nonzero target
itemsize, an unchanged itemsize for 0-d arrays, and otherwise a last-axis
byte count divisible by the target itemsize. -/
def viewCompatible (a : NDArray) (d : DType) : Prop :=
  d.itemsize ≠ 0
    ∧ (a.shape = [] → d.itemsize = a.dtype.itemsize)
    ∧ (a.shape ≠ [] → a.shape.getLastD 0 * a.dtype.itemsize % d.itemsize = 0)

instance (a : NDArray) (d : DType) : Decidable (viewCompatible a d) :=
  inferInstanceAs (Decidable (d.itemsize ≠ 0
    ∧ (a.shape = [] → d.itemsize = a.dtype.itemsize)
    ∧ (a.shape ≠ [] → a.shape.getLastD 0 * a.dtype.itemsize % d.itemsize = 0)))

/-- The numpy dtype `float32` (a 4-byte float). -/
def f32dt : DType := ⟨"float32", 4⟩

/-- The numpy dtype `int32`. -/
def i32dt : DType := ⟨"int32", 4⟩

/-- Involution on dtypes swapping `float32` and `int32`, leaving everything
else fixed. -/
def swapDt (d : DType) : DType :=
  if d = f32dt then i32dt else if d = i32dt then f32dt else d

/-- A filter whose forward and inverse transforms both relabel the dtype by
`swapDt` and keep the bytes: the two transforms are mutual inverses on all
arrays, yet the filter changes the dtype of its input. -/
def cexF : FilterCodec :=
  ⟨fun a => { a with dtype := swapDt a.dtype }, fun a => { a with dtype := swapDt a.dtype }⟩

/-- A one-element `float32` chunk holding the bytes of 0.0. -/
def cexChunk : NDArray := ⟨f32dt, [1], .C, [[0, 0, 0, 0]]⟩

/-- The spec matching `cexChunk`. -/
def cexSpec : ArraySpec := ⟨[1], f32dt, .C⟩

/-- A filter that reverses the element list in both directions; it is an
involution and preserves dtype, layout and one-dimensional shape. -/
def revFilter : FilterCodec :=
  ⟨fun a => { a with data := a.data.reverse }, fun a => { a with data := a.data.reverse }⟩

/-- A two-element `int16` chunk used by the round-trip witness. -/
def w1chunk : NDArray := ⟨⟨"int16", 2⟩, [2], .C, [[1, 0], [2, 0]]⟩

/-- The spec matching `w1chunk`. -/
def w1spec : ArraySpec := ⟨[2], ⟨"int16", 2⟩, .C⟩

/-- The 4 by 4 row-major `float32` array of the sequential values
0.0, 1.0, ..., 15.0, each element spelled as its IEEE-754 little-endian
bytes. -/
def ex4x4 : NDArray :=
  ⟨f32dt, [4, 4], .C,
    [[0, 0, 0, 0], [0, 0, 128, 63], [0, 0, 0, 64], [0, 0, 64, 64],
     [0, 0, 128, 64], [0, 0, 160, 64], [0, 0, 192, 64], [0, 0, 224, 64],
     [0, 0, 0, 65], [0, 0, 16, 65], [0, 0, 32, 65], [0, 0, 48, 65],
     [0, 0, 64, 65], [0, 0, 80, 65], [0, 0, 96, 65], [0, 0, 112, 65]]⟩

/-- The spec matching `ex4x4`: shape (4,4), 4-byte float, row-major. -/
def exSpec44 : ArraySpec := ⟨[4, 4], f32dt, .C⟩

/-- The 64 raw bytes of `ex4x4` in row-major order. -/
def exBytes64 : Buffer := ex4x4.data.flatten

/-- A two-element `uint8` array whose shape already matches `w5spec`. -/
def w5a : NDArray := ⟨uint8dt, [2], .C, [[1], [2]]⟩

/-- A spec of shape [2] over `uint8`. -/
def w5spec : ArraySpec := ⟨[2], uint8dt, .C⟩

/-- A four-element one-dimensional `uint8` array for reshape witnesses. -/
def w5b : NDArray := ⟨uint8dt, [4], .C, [[1], [2], [3], [4]]⟩

/-- A spec of shape [2,2] over `uint8`. -/
def w5spec2 : ArraySpec := ⟨[2, 2], uint8dt, .C⟩

/-- A non-contiguous two-element `uint8` array for the encode witness. -/
def w6a : NDArray := ⟨uint8dt, [2], .NonContig, [[5], [6]]⟩

/-- A 1 by 2 `uint8` array whose byte count is compatible with shape [2]. -/
def w8a : NDArray := ⟨uint8dt, [1, 2], .C, [[1], [2]]⟩

/-- A spec asking for `float32` from a 3-byte buffer: incompatible. -/
def w8spec : ArraySpec := ⟨[3], f32dt, .C⟩

/-- A spec of shape [2], compatible with the two elements of `w8a`. -/
def w8spec2 : ArraySpec := ⟨[2], uint8dt, .C⟩

/-- The result of bit-casting the raw 4-byte buffer [1,2,3,4] (as a
`uint8` array) to `float32`: one 4-byte element, same bytes. -/
def w4viewed : NDArray := ⟨f32dt, [1], .C, [[1, 2, 3, 4]]⟩

theorem chunkBytesAux_nil (k fuel : Nat) : chunkBytesAux k fuel [] = [] := by
  cases fuel <;> rfl

theorem flatten_chunkBytesAux (k : Nat) (hk : k ≠ 0) :
    ∀ (fuel : Nat) (xs : List Nat), xs.length ≤ fuel →
      (chunkBytesAux k fuel xs).flatten = xs := by
  intro fuel
  induction fuel with
  | zero =>
      intro xs h
      have hx : xs = [] := List.eq_nil_of_length_eq_zero (Nat.le_zero.mp h)
      subst hx
      rfl
  | succ n ih =>
      intro xs h
      cases xs with
      | nil => rfl
      | cons x l =>
          simp only [chunkBytesAux, List.flatten_cons]
          rw [ih ((x :: l).drop k) ?_]
          · exact List.take_append_drop k (x :: l)
          · simp only [List.length_drop, List.length_cons] at *
            omega

theorem flatten_chunkBytes (k : Nat) (hk : k ≠ 0) (xs : List Nat) :
    (chunkBytes k xs).flatten = xs := by
  unfold chunkBytes
  rw [if_neg hk]
  exact flatten_chunkBytesAux k hk xs.length xs le_rfl

theorem chunkBytesAux_flatten_eq (k : Nat) (hk : k ≠ 0) :
    ∀ (l : List (List Nat)) (fuel : Nat), (∀ e ∈ l, e.length = k) →
      l.flatten.length ≤ fuel → chunkBytesAux k fuel l.flatten = l := by
  intro l
  induction l with
  | nil => intro fuel _ _; exact chunkBytesAux_nil k fuel
  | cons e rest ih =>
      intro fuel h hfl
      have he : e.length = k := h e (List.mem_cons_self e rest)
      have hrest : ∀ x ∈ rest, x.length = k := fun x hx => h x (List.mem_cons_of_mem e hx)
      obtain ⟨b, e', hbe⟩ : ∃ b e', e = b :: e' := by
        cases e with
        | nil => simp at he; omega
        | cons b e' => exact ⟨b, e', rfl⟩
      have hflat : (e :: rest).flatten = e ++ rest.flatten := List.flatten_cons
      rw [hflat] at hfl ⊢
      have hlen : (e ++ rest.flatten).length = k + rest.flatten.length := by
        simp [he]
      cases fuel with
      | zero => rw [hlen] at hfl; omega
      | succ n =>
          have hcons : e ++ rest.flatten = b :: (e' ++ rest.flatten) := by
            rw [hbe]; rfl
          rw [hcons]
          simp only [chunkBytesAux]
          rw [← hcons]
          have htake : (e ++ rest.flatten).take k = e := by
            rw [← he]; exact List.take_left e rest.flatten
          have hdrop : (e ++ rest.flatten).drop k = rest.flatten := by
            rw [← he]; exact List.drop_left e rest.flatten
          rw [htake, hdrop, ih n hrest ?_]
          rw [hlen] at hfl
          omega

theorem chunkBytes_flatten_eq (k : Nat) (hk : k ≠ 0) (l : List (List Nat))
    (h : ∀ e ∈ l, e.length = k) : chunkBytes k l.flatten = l := by
  unfold chunkBytes
  rw [if_neg hk]
  exact chunkBytesAux_flatten_eq k hk l l.flatten.length h le_rfl

theorem flatten_length_uniform (k : Nat) (l : List (List Nat))
    (h : ∀ e ∈ l, e.length = k) : l.flatten.length = l.length * k := by
  induction l with
  | nil => simp
  | cons e rest ih =>
      have he : e.length = k := h e (List.mem_cons_self e rest)
      have hrest := ih fun x hx => h x (List.mem_cons_of_mem e hx)
      simp only [List.flatten_cons, List.length_append, List.length_cons, he, hrest]
      ring

theorem flatten_map_singleton (l : List Nat) :
    (l.map fun x => [x]).flatten = l := by
  induction l with
  | nil => rfl
  | cons x rest ih => simp [ih]

theorem map_singleton_flatten (l : List (List Nat)) (h : ∀ e ∈ l, e.length = 1) :
    l.flatten.map (fun x => [x]) = l := by
  induction l with
  | nil => rfl
  | cons e rest ih =>
      obtain ⟨b, hb⟩ := List.length_eq_one.mp (h e (List.mem_cons_self e rest))
      subst hb
      have hrest := ih fun x hx => h x (List.mem_cons_of_mem _ hx)
      simp only [List.flatten_cons, List.singleton_append, List.map_cons, hrest]

theorem cPos_lt {s is : List Nat} (h : List.Forall₂ (· < ·) is s) :
    cPos s is < s.prod := by
  induction h with
  | nil => simp [cPos]
  | @cons a b as bs hab hrest ih =>
      simp only [cPos, List.prod_cons]
      calc a * bs.prod + cPos bs as < a * bs.prod + bs.prod := by omega
        _ = (a + 1) * bs.prod := by ring
        _ ≤ b * bs.prod := Nat.mul_le_mul_right _ hab

theorem fPos_lt {s is : List Nat} (h : List.Forall₂ (· < ·) is s) :
    fPos s is < s.prod := by
  induction h with
  | nil => simp [fPos]
  | @cons a b as bs hab hrest ih =>
      simp only [fPos, List.prod_cons]
      calc a + b * fPos bs as < b + b * fPos bs as := by omega
        _ = b * (fPos bs as + 1) := by ring
        _ ≤ b * bs.prod := Nat.mul_le_mul_left _ ih

theorem prod_pos_of_lt {s : List Nat} {p : Nat} (h : p < s.prod) (d : Nat)
    (hs : s = d :: s.tail) : 0 < s.tail.prod := by
  rcases Nat.eq_zero_or_pos s.tail.prod with h0 | h0
  · rw [hs, List.prod_cons, h0, Nat.mul_zero] at h
    omega
  · exact h0

theorem multiIdxC_valid : ∀ (s : List Nat) (p : Nat), p < s.prod →
    List.Forall₂ (· < ·) (multiIdxC s p) s
  | [], p, _ => by simp [multiIdxC]
  | d :: ds, p, h => by
      simp only [multiIdxC]
      have hq : 0 < ds.prod := by
        rcases Nat.eq_zero_or_pos ds.prod with h0 | h0
        · rw [List.prod_cons, h0, Nat.mul_zero] at h; omega
        · exact h0
      refine List.Forall₂.cons ?_ (multiIdxC_valid ds (p % ds.prod) (Nat.mod_lt _ hq))
      rw [List.prod_cons] at h
      exact (Nat.div_lt_iff_lt_mul hq).mpr (by omega)

theorem multiIdxF_valid : ∀ (s : List Nat) (k : Nat), k < s.prod →
    List.Forall₂ (· < ·) (multiIdxF s k) s
  | [], k, _ => by simp [multiIdxF]
  | d :: ds, k, h => by
      simp only [multiIdxF]
      have hd : 0 < d := by
        rcases Nat.eq_zero_or_pos d with h0 | h0
        · rw [List.prod_cons, h0, Nat.zero_mul] at h; omega
        · exact h0
      refine List.Forall₂.cons (Nat.mod_lt _ hd) (multiIdxF_valid ds (k / d) ?_)
      rw [List.prod_cons] at h
      exact (Nat.div_lt_iff_lt_mul hd).mpr (by rw [Nat.mul_comm]; exact h)

theorem cPos_multiIdxC : ∀ (s : List Nat) (p : Nat), p < s.prod →
    cPos s (multiIdxC s p) = p
  | [], p, h => by
      simp only [List.prod_nil] at h
      simp only [multiIdxC, cPos]
      omega
  | d :: ds, p, h => by
      simp only [multiIdxC, cPos]
      have hq : 0 < ds.prod := by
        rcases Nat.eq_zero_or_pos ds.prod with h0 | h0
        · rw [List.prod_cons, h0, Nat.mul_zero] at h; omega
        · exact h0
      rw [cPos_multiIdxC ds (p % ds.prod) (Nat.mod_lt _ hq)]
      have hdm := Nat.div_add_mod p ds.prod
      rw [Nat.mul_comm ds.prod (p / ds.prod)] at hdm
      exact hdm

theorem multiIdxF_fPos {s is : List Nat} (h : List.Forall₂ (· < ·) is s) :
    multiIdxF s (fPos s is) = is := by
  induction h with
  | nil => rfl
  | @cons a b as bs hab hrest ih =>
      have hb : 0 < b := by omega
      simp only [fPos, multiIdxF]
      rw [Nat.add_mul_mod_self_left, Nat.mod_eq_of_lt hab,
        Nat.add_mul_div_left _ _ hb, Nat.div_eq_of_lt hab, Nat.zero_add, ih]

theorem getD_range_map (g : Nat → List Nat) (n k : Nat) (x : List Nat) (h : k < n) :
    ((List.range n).map g).getD k x = g k := by
  have hlen : k < ((List.range n).map g).length := by simpa using h
  rw [List.getD_eq_getElem _ _ hlen]
  simp

theorem range_map_getD (d : List (List Nat)) (x : List Nat) :
    (List.range d.length).map (fun k => d.getD k x) = d := by
  apply List.ext_getElem
  · simp
  · intro i h1 h2
    have hi : i < d.length := by simpa using h2
    simp only [List.getElem_map, List.getElem_range]
    exact List.getD_eq_getElem d x hi

theorem fromListF_toListF (s : List Nat) (d : List (List Nat)) (hd : d.length = s.prod) :
    fromListO .F s (toListO .F s d) = d := by
  simp only [fromListO, toListO]
  have hentry : ∀ p ∈ List.range s.prod,
      ((List.range s.prod).map fun k => d.getD (cPos s (multiIdxF s k)) []).getD
        (fPos s (multiIdxC s p)) [] = d.getD p [] := by
    intro p hp
    have hplt : p < s.prod := List.mem_range.mp hp
    have hvalid := multiIdxC_valid s p hplt
    have hflt : fPos s (multiIdxC s p) < s.prod := fPos_lt hvalid
    rw [getD_range_map _ _ _ _ hflt, multiIdxF_fPos hvalid, cPos_multiIdxC s p hplt]
  rw [List.map_congr_left hentry, ← hd, range_map_getD]

theorem fromListO_toListO (o : MemOrder) (s : List Nat) (d : List (List Nat))
    (hd : d.length = s.prod) : fromListO o s (toListO o s d) = d := by
  cases o with
  | C => rfl
  | F => exact fromListF_toListF s d hd

theorem toListO_onedim (o : MemOrder) (n : Nat) (d : List (List Nat)) (hd : d.length = n) :
    toListO o [n] d = d := by
  cases o with
  | C => rfl
  | F =>
      simp only [toListO, List.prod_cons, List.prod_nil, Nat.mul_one]
      have hentry : ∀ k ∈ List.range n, d.getD (cPos [n] (multiIdxF [n] k)) [] = d.getD k [] := by
        intro k hk
        have hklt : k < n := List.mem_range.mp hk
        have hcp : cPos [n] (multiIdxF [n] k) = k % n := by
          simp [cPos, multiIdxF]
        rw [hcp, Nat.mod_eq_of_lt hklt]
      rw [List.map_congr_left hentry, ← hd, range_map_getD]

theorem toListO_length (o : MemOrder) (s : List Nat) (d : List (List Nat))
    (hd : d.length = s.prod) : (toListO o s d).length = s.prod := by
  cases o with
  | C => exact hd
  | F => simp [toListO]

theorem toListO_mem (o : MemOrder) (s : List Nat) (d : List (List Nat))
    (hd : d.length = s.prod) : ∀ e ∈ toListO o s d, e ∈ d := by
  cases o with
  | C => exact fun e he => he
  | F =>
      intro e he
      simp only [toListO, List.mem_map, List.mem_range] at he
      obtain ⟨k, hk, hke⟩ := he
      have hvalid := multiIdxF_valid s k hk
      have hc : cPos s (multiIdxF s k) < d.length := by
        rw [hd]; exact cPos_lt hvalid
      rw [List.getD_eq_getElem d [] hc] at hke
      rw [← hke]
      exact List.getElem_mem hc

theorem ndarrayExt {a b : NDArray} (h1 : a.dtype = b.dtype) (h2 : a.shape = b.shape)
    (h3 : a.layout = b.layout) (h4 : a.data = b.data) : a = b := by
  cases a
  cases b
  simp_all

theorem swapDt_invol (d : DType) : swapDt (swapDt d) = d := by
  by_cases h1 : d = f32dt
  · subst h1
    rfl
  · by_cases h2 : d = i32dt
    · subst h2
      rfl
    · simp [swapDt, h1, h2]

theorem applyFilters_cons (f : FilterCodec) (fs : List FilterCodec) (a : NDArray) :
    applyFilters (f :: fs) a = applyFilters fs (f.encodeFn a) := rfl

theorem applyInvFilters_cons (f : FilterCodec) (fs : List FilterCodec) (a : NDArray) :
    applyInvFilters (f :: fs) a = f.decodeFn (applyInvFilters fs a) := by
  simp [applyInvFilters, List.reverse_cons, List.foldl_append]

theorem goodArr_ravel (dt : DType) (a : NDArray) (o : MemOrder)
    (hdt : a.dtype = dt) (hlen : a.data.length = a.shape.prod)
    (helem : ∀ e ∈ a.data, e.length = dt.itemsize) :
    GoodArr dt (a.ravel o) := by
  refine ⟨hdt, rfl, ?_, ?_⟩
  · show [a.shape.prod] = [(toListO o a.shape a.data).length]
    rw [toListO_length o _ _ hlen]
  · intro e he
    exact helem e (toListO_mem o _ _ hlen e he)

theorem goodArr_applyFilters (dt : DType) (fs : List FilterCodec) (a : NDArray)
    (hfp : ∀ f ∈ fs, ∀ x, GoodArr dt x → GoodArr dt (f.encodeFn x))
    (ha : GoodArr dt a) : GoodArr dt (applyFilters fs a) := by
  induction fs generalizing a with
  | nil => exact ha
  | cons f rest ih =>
      rw [applyFilters_cons]
      apply ih
      · intro g hg x hx
        exact hfp g (List.mem_cons_of_mem f hg) x hx
      · exact hfp f (List.mem_cons_self f rest) a ha

theorem applyInvFilters_applyFilters (dt : DType) (fs : List FilterCodec) (a : NDArray)
    (hfp : ∀ f ∈ fs, ∀ x, GoodArr dt x → GoodArr dt (f.encodeFn x))
    (hfi : ∀ f ∈ fs, ∀ x, GoodArr dt x → f.decodeFn (f.encodeFn x) = x)
    (ha : GoodArr dt a) : applyInvFilters fs (applyFilters fs a) = a := by
  induction fs generalizing a with
  | nil => rfl
  | cons f rest ih =>
      rw [applyFilters_cons, applyInvFilters_cons]
      have hrec : applyInvFilters rest (applyFilters rest (f.encodeFn a)) = f.encodeFn a := by
        apply ih
        · intro g hg x hx
          exact hfp g (List.mem_cons_of_mem f hg) x hx
        · intro g hg x hx
          exact hfi g (List.mem_cons_of_mem f hg) x hx
        · exact hfp f (List.mem_cons_self f rest) a ha
      rw [hrec, hfi f (List.mem_cons_self f rest) a ha]

theorem view_compat_ok (a : NDArray) (d : DType) (h : viewCompatible a d) :
    ∃ r, a.view d = .ok r ∧ r.dtype = d ∧ r.data.flatten = a.data.flatten := by
  obtain ⟨h0, h1, h2⟩ := h
  unfold NDArray.view
  rw [if_neg h0]
  by_cases hs : a.shape = []
  · rw [if_pos hs, if_pos (h1 hs)]
    exact ⟨_, rfl, rfl, flatten_chunkBytes _ h0 _⟩
  · rw [if_neg hs, if_neg (not_not_intro (h2 hs))]
    exact ⟨_, rfl, rfl, flatten_chunkBytes _ h0 _⟩

theorem view_not_compat_error (a : NDArray) (d : DType) (h : ¬ viewCompatible a d) :
    ∃ msg, a.view d = .error msg := by
  unfold NDArray.view
  by_cases h0 : d.itemsize = 0
  · rw [if_pos h0]
    exact ⟨_, rfl⟩
  rw [if_neg h0]
  by_cases hs : a.shape = []
  · rw [if_pos hs]
    by_cases hi : d.itemsize = a.dtype.itemsize
    · exact absurd ⟨h0, fun _ => hi, fun hne => absurd hs hne⟩ h
    · rw [if_neg hi]
      exact ⟨_, rfl⟩
  · rw [if_neg hs]
    by_cases hm : a.shape.getLastD 0 * a.dtype.itemsize % d.itemsize = 0
    · exact absurd ⟨h0, fun he => absurd he hs, fun _ => hm⟩ h
    · rw [if_pos hm]
      exact ⟨_, rfl⟩

/-- Claim C2: for every filter list, `V2Filters.encode_single` invokes the
forward transforms first-to-last (the head filter first, the appended last
filter last), `V2Filters.decode_single` invokes the inverse transforms in
exactly the reversed order (the head filter's inverse last, the last
filter's inverse first), the compressor stage is applied after the whole
forward chain in the full encode pipeline, and the reshape reconciliation
follows the inverse chain on decode. -/
theorem C2_filter_order (fs : List FilterCodec) (g : FilterCodec) (a : NDArray)
    (spec : ArraySpec) (comp? : Option CompCodec) :
    V2Filters.encode_single ⟨some fs⟩ a spec = .ok (applyFilters fs (a.ravel spec.order))
      ∧ applyFilters (g :: fs) a = applyFilters fs (g.encodeFn a)
      ∧ applyFilters (fs ++ [g]) a = g.encodeFn (applyFilters fs a)
      ∧ applyInvFilters (g :: fs) a = g.decodeFn (applyInvFilters fs a)
      ∧ applyInvFilters (fs ++ [g]) a = applyInvFilters fs (g.decodeFn a)
      ∧ fullEncode ⟨some fs⟩ ⟨comp?⟩ a spec
          = .ok (V2Compressor.encode_single ⟨comp?⟩ (applyFilters fs (a.ravel spec.order)) spec)
      ∧ V2Filters.decode_single ⟨some fs⟩ a spec
          = (if (applyInvFilters fs a).shape ≠ spec.shape then
              (applyInvFilters fs a).reshape spec.shape spec.order
            else .ok (applyInvFilters fs a)) := by
  refine ⟨rfl, rfl, ?_, applyInvFilters_cons g fs a, ?_, rfl, rfl⟩
  · simp [applyFilters, List.foldl_append]
  · simp [applyInvFilters, List.reverse_append]

/-- Claim C3: for every compressor configuration (present or absent) and
every spec, `V2Compressor.decode_single` applied to the `None` sentinel
returns the sentinel immediately, invoking nothing. -/
theorem C3_sentinel_propagation (self : V2Compressor) (spec : ArraySpec) :
    V2Compressor.decode_single self none spec = .ok none := rfl

/-- Claim C5: in `V2Filters.decode_single`, after the inverse filters run,
the working array is returned unchanged when its shape already equals
`spec.shape` and is otherwise reshaped to `spec.shape` using `spec.order`;
with an empty filter list the working array is the input itself, so the
reconciliation step still applies. -/
theorem C5_shape_reconciliation (fs? : Option (List FilterCodec)) (a : NDArray)
    (spec : ArraySpec) :
    ((applyInvFiltersOpt fs? a).shape = spec.shape →
        V2Filters.decode_single ⟨fs?⟩ a spec = .ok (applyInvFiltersOpt fs? a))
      ∧ ((applyInvFiltersOpt fs? a).shape ≠ spec.shape →
        V2Filters.decode_single ⟨fs?⟩ a spec
          = (applyInvFiltersOpt fs? a).reshape spec.shape spec.order)
      ∧ applyInvFiltersOpt (some []) a = a := by
  refine ⟨?_, ?_, rfl⟩ <;> intro h <;> simp [V2Filters.decode_single, h]

/-- Witness for C5 at concrete inputs: a matching shape is returned as is,
a mismatched shape goes through `reshape`. -/
theorem C5_shape_reconciliation_witness :
    V2Filters.decode_single ⟨some []⟩ w5a w5spec = .ok w5a
      ∧ V2Filters.decode_single ⟨some []⟩ w5b w5spec2
          = w5b.reshape w5spec2.shape w5spec2.order := by
  constructor
  · exact (C5_shape_reconciliation (some []) w5a w5spec).1 (by decide)
  · exact (C5_shape_reconciliation (some []) w5b w5spec2).2.1 (by decide)

/-- Claim C6: encoding a non-contiguous chunk array (with or without a
compressor) gives the same bytes as encoding its contiguous copy, and the
copy is an equivalent array (same data, shape, dtype) in C layout. -/
theorem C6_noncontiguous_encode (comp? : Option CompCodec) (a : NDArray) (spec : ArraySpec)
    (h : a.layout = .NonContig) :
    V2Compressor.encode_single ⟨comp?⟩ a spec = V2Compressor.encode_single ⟨comp?⟩ a.copyA spec
      ∧ a.copyA.layout = .C ∧ a.copyA.data = a.data ∧ a.copyA.shape = a.shape
      ∧ a.copyA.dtype = a.dtype := by
  have hcopy : a.copyA.layout = .C := by
    simp [NDArray.copyA, h]
  refine ⟨?_, hcopy, rfl, rfl, rfl⟩
  cases comp? with
  | none =>
      show a.tobytesA = a.copyA.tobytesA
      simp [NDArray.tobytesA, NDArray.copyA, h]
  | some c =>
      simp [V2Compressor.encode_single, h, hcopy]

/-- Witness for C6: a concrete non-contiguous `uint8` array encodes to the
bytes of its contiguous copy. -/
theorem C6_noncontiguous_encode_witness :
    V2Compressor.encode_single ⟨none⟩ w6a w5spec
        = V2Compressor.encode_single ⟨none⟩ w6a.copyA w5spec
      ∧ w6a.copyA.layout = .C ∧ w6a.copyA.data = w6a.data ∧ w6a.copyA.shape = w6a.shape
      ∧ w6a.copyA.dtype = w6a.dtype :=
  C6_noncontiguous_encode none w6a w5spec (by decide)

/-- Claim C9: `compute_encoded_size` on either stage raises
`NotImplementedError` for every input length and spec, never returning a
value. -/
theorem C9_compute_encoded_size (c : V2Compressor) (f : V2Filters) (n : Nat)
    (spec : ArraySpec) :
    c.compute_encoded_size n spec = .error "NotImplementedError"
      ∧ f.compute_encoded_size n spec = .error "NotImplementedError" :=
  ⟨rfl, rfl⟩

/-- Claim C10: a `V2Filters` built with a `None` filter list decodes
exactly like the empty filter chain (no inverse filter runs, the shape
reconciliation still happens, and any successful result has `spec.shape`),
while `encode_single` has no such guard and fails by iterating `None`. -/
theorem C10_none_filter_guard (a : NDArray) (spec : ArraySpec) :
    V2Filters.decode_single ⟨none⟩ a spec = V2Filters.decode_single ⟨some []⟩ a spec
      ∧ applyInvFiltersOpt none a = a
      ∧ (∀ r, V2Filters.decode_single ⟨none⟩ a spec = .ok r → r.shape = spec.shape)
      ∧ ∀ (b : NDArray) (spec2 : ArraySpec),
          V2Filters.encode_single ⟨none⟩ b spec2
            = .error "TypeError: NoneType object is not iterable" := by
  refine ⟨rfl, rfl, ?_, fun b spec2 => rfl⟩
  intro r hr
  have hd : V2Filters.decode_single ⟨none⟩ a spec
      = if a.shape ≠ spec.shape then a.reshape spec.shape spec.order else .ok a := rfl
  rw [hd] at hr
  by_cases h : a.shape = spec.shape
  · rw [if_neg (not_not_intro h)] at hr
    injection hr with h2
    subst h2
    exact h
  · rw [if_pos h] at hr
    unfold NDArray.reshape at hr
    by_cases h2 : spec.shape.prod = a.shape.prod
    · rw [if_neg (not_not_intro h2)] at hr
      injection hr with h3
      subst h3
      rfl
    · rw [if_pos h2] at hr
      exact Except.noConfusion hr

/-- Witness for C10 at concrete inputs: the `None`-filtered decode of a
matching-shape array succeeds with the spec's shape, and the `None`
encode path fails. -/
theorem C10_none_filter_guard_witness :
    w5a.shape = w5spec.shape
      ∧ V2Filters.encode_single ⟨none⟩ w5a w5spec
          = .error "TypeError: NoneType object is not iterable" :=
  ⟨(C10_none_filter_guard w5a w5spec).2.2.1 w5a rfl,
   (C10_none_filter_guard w5a w5spec).2.2.2 w5a w5spec⟩

/-- Claim C4: in `V2Compressor.decode_single`, when the decoded array's
dtype name differs from the spec's the result is exactly the `view`
bit-cast of that array to `spec.dtype` (which preserves the underlying
bytes and only relabels the dtype), and when the names match the array is
returned with no reinterpretation. -/
theorem C4_dtype_reconciliation (self : V2Compressor) (b : Buffer) (spec : ArraySpec) :
    ((rawDecodedArray self b).dtype.name = spec.dtype.name →
        self.decode_single (some b) spec = .ok (some (rawDecodedArray self b)))
      ∧ ((rawDecodedArray self b).dtype.name ≠ spec.dtype.name →
          self.decode_single (some b) spec
            = ((rawDecodedArray self b).view spec.dtype).map some)
      ∧ ∀ r, (rawDecodedArray self b).view spec.dtype = .ok r →
          r.data.flatten = (rawDecodedArray self b).data.flatten ∧ r.dtype = spec.dtype := by
  refine ⟨?_, ?_, ?_⟩
  · intro h
    simp [V2Compressor.decode_single, h]
  · intro h
    simp [V2Compressor.decode_single, h]
  · intro r hv
    unfold NDArray.view at hv
    by_cases hz : spec.dtype.itemsize = 0
    · rw [if_pos hz] at hv
      exact Except.noConfusion hv
    rw [if_neg hz] at hv
    by_cases hs : (rawDecodedArray self b).shape = []
    · rw [if_pos hs] at hv
      by_cases hi : spec.dtype.itemsize = (rawDecodedArray self b).dtype.itemsize
      · rw [if_pos hi] at hv
        injection hv with h1
        subst h1
        exact ⟨flatten_chunkBytes _ hz _, rfl⟩
      · rw [if_neg hi] at hv
        exact Except.noConfusion hv
    · rw [if_neg hs] at hv
      by_cases hm : (rawDecodedArray self b).shape.getLastD 0
          * (rawDecodedArray self b).dtype.itemsize % spec.dtype.itemsize = 0
      · rw [if_neg (not_not_intro hm)] at hv
        injection hv with h1
        subst h1
        exact ⟨flatten_chunkBytes _ hz _, rfl⟩
      · rw [if_pos hm] at hv
        exact Except.noConfusion hv

/-- Witness for C4 at concrete inputs: raw `uint8` bytes decoded under a
`float32` spec are bit-cast (same flattened bytes, relabeled dtype), and a
matching `uint8` spec returns the raw view untouched. -/
theorem C4_dtype_reconciliation_witness :
    V2Compressor.decode_single ⟨none⟩ (some [1, 2]) w8spec2
        = .ok (some (rawDecodedArray ⟨none⟩ [1, 2]))
      ∧ V2Compressor.decode_single ⟨none⟩ (some [1, 2, 3, 4]) exSpec44
          = ((rawDecodedArray ⟨none⟩ [1, 2, 3, 4]).view exSpec44.dtype).map some
      ∧ (rawDecodedArray ⟨none⟩ [1, 2, 3, 4]).view exSpec44.dtype = .ok w4viewed
      ∧ w4viewed.data.flatten = (rawDecodedArray ⟨none⟩ [1, 2, 3, 4]).data.flatten
      ∧ w4viewed.dtype = exSpec44.dtype := by
  refine ⟨(C4_dtype_reconciliation ⟨none⟩ [1, 2] w8spec2).1 (by decide),
    (C4_dtype_reconciliation ⟨none⟩ [1, 2, 3, 4] exSpec44).2.1 (by decide), rfl, ?_, ?_⟩
  · exact ((C4_dtype_reconciliation ⟨none⟩ [1, 2, 3, 4] exSpec44).2.2 w4viewed rfl).1
  · exact ((C4_dtype_reconciliation ⟨none⟩ [1, 2, 3, 4] exSpec44).2.2 w4viewed rfl).2

/-- Claim C8: at the decode reconciliation steps, an incompatible byte
count makes the operation fail with an error (`view` in
`V2Compressor.decode_single` when the last-axis byte count does not divide
into the spec dtype, `reshape` in `V2Filters.decode_single` when the
element counts disagree), while a compatible byte count is resolved
automatically, preserving the bytes for the dtype cast and producing the
spec's shape for the reshape. -/
theorem C8_incompatible_byte_count (self : V2Compressor) (b : Buffer) (f : V2Filters)
    (a : NDArray) (spec : ArraySpec) :
    ((rawDecodedArray self b).dtype.name ≠ spec.dtype.name →
        ¬ viewCompatible (rawDecodedArray self b) spec.dtype →
        ∃ msg, self.decode_single (some b) spec = .error msg)
      ∧ ((rawDecodedArray self b).dtype.name ≠ spec.dtype.name →
          viewCompatible (rawDecodedArray self b) spec.dtype →
          ∃ r, self.decode_single (some b) spec = .ok (some r)
            ∧ r.dtype = spec.dtype
            ∧ r.data.flatten = (rawDecodedArray self b).data.flatten)
      ∧ ((applyInvFiltersOpt f.filters a).shape ≠ spec.shape →
          spec.shape.prod ≠ (applyInvFiltersOpt f.filters a).shape.prod →
          f.decode_single a spec = .error "ValueError: cannot reshape array")
      ∧ ((applyInvFiltersOpt f.filters a).shape ≠ spec.shape →
          spec.shape.prod = (applyInvFiltersOpt f.filters a).shape.prod →
          ∃ r, f.decode_single a spec = .ok r ∧ r.shape = spec.shape) := by
  refine ⟨?_, ?_, ?_, ?_⟩
  · intro hn hc
    obtain ⟨msg, hmsg⟩ := view_not_compat_error _ _ hc
    refine ⟨msg, ?_⟩
    have hd : self.decode_single (some b) spec
        = ((rawDecodedArray self b).view spec.dtype).map some := by
      simp [V2Compressor.decode_single, hn]
    rw [hd, hmsg]
    rfl
  · intro hn hc
    obtain ⟨r, hr, hdt, hby⟩ := view_compat_ok _ _ hc
    refine ⟨r, ?_, hdt, hby⟩
    have hd : self.decode_single (some b) spec
        = ((rawDecodedArray self b).view spec.dtype).map some := by
      simp [V2Compressor.decode_single, hn]
    rw [hd, hr]
    rfl
  · intro hs hp
    have hd : f.decode_single a spec
        = (applyInvFiltersOpt f.filters a).reshape spec.shape spec.order := by
      obtain ⟨fs?⟩ := f
      simp [V2Filters.decode_single, hs]
    rw [hd]
    unfold NDArray.reshape
    rw [if_pos hp]
  · intro hs hp
    have hd : f.decode_single a spec
        = (applyInvFiltersOpt f.filters a).reshape spec.shape spec.order := by
      obtain ⟨fs?⟩ := f
      simp [V2Filters.decode_single, hs]
    rw [hd]
    unfold NDArray.reshape
    rw [if_neg (not_not_intro hp)]
    exact ⟨_, rfl, rfl⟩

/-- Witness for C8 at concrete inputs: three raw bytes cannot be cast to
`float32` and decoding fails, while a 1 by 2 array reshapes to the
compatible shape [2]. -/
theorem C8_incompatible_byte_count_witness :
    (∃ msg, V2Compressor.decode_single ⟨none⟩ (some [0, 0, 0]) w8spec = .error msg)
      ∧ ∃ r, V2Filters.decode_single ⟨none⟩ w8a w8spec2 = .ok r ∧ r.shape = w8spec2.shape :=
  ⟨(C8_incompatible_byte_count ⟨none⟩ [0, 0, 0] ⟨none⟩ w8a w8spec).1 (by decide) (by decide),
   (C8_incompatible_byte_count ⟨none⟩ [0, 0, 0] ⟨none⟩ w8a w8spec2).2.2.2 (by decide) (by decide)⟩

/-- Claim C7: with an empty filter list and no compressor, the full encode
pipeline returns exactly the raw bytes of the chunk flattened in
`spec.order`; concretely, the 4 by 4 row-major `float32` array of
0.0..15.0 encodes to its 64 raw bytes in row-major order and decoding
those bytes with the same spec reproduces the identical array (the shape
being restored by reshape even though no filter or compressor ran). -/
theorem C7_passthrough :
    (∀ (a : NDArray) (spec : ArraySpec),
        fullEncode ⟨some []⟩ ⟨none⟩ a spec = .ok (toListO spec.order a.shape a.data).flatten)
      ∧ fullEncode ⟨some []⟩ ⟨none⟩ ex4x4 exSpec44 = .ok exBytes64
      ∧ exBytes64.length = 64
      ∧ fullDecode ⟨some []⟩ ⟨none⟩ (some exBytes64) exSpec44 = .ok (some ex4x4) :=
  ⟨fun _ _ => rfl, rfl, rfl, rfl⟩

theorem dtypeExt {a b : DType} (h1 : a.name = b.name) (h2 : a.itemsize = b.itemsize) :
    a = b := by
  cases a
  cases b
  simp_all

theorem decode_single_name_eq (self : V2Compressor) (b : Buffer) (spec : ArraySpec)
    (h : (rawDecodedArray self b).dtype.name = spec.dtype.name) :
    self.decode_single (some b) spec = .ok (some (rawDecodedArray self b)) := by
  simp [V2Compressor.decode_single, h]

theorem decode_single_name_ne (self : V2Compressor) (b : Buffer) (spec : ArraySpec)
    (h : (rawDecodedArray self b).dtype.name ≠ spec.dtype.name) :
    self.decode_single (some b) spec = ((rawDecodedArray self b).view spec.dtype).map some := by
  simp [V2Compressor.decode_single, h]

theorem compressor_stage_roundtrip (comp? : Option CompCodec) (spec : ArraySpec)
    (an : NDArray)
    (hitem : spec.dtype.itemsize ≠ 0)
    (hu8 : spec.dtype.name = uint8dt.name → spec.dtype.itemsize = uint8dt.itemsize)
    (hgn : GoodArr spec.dtype an)
    (hc : ∀ c, comp? = some c → c.decodeFn (c.encodeFn an) = an) :
    V2Compressor.decode_single ⟨comp?⟩
      (some (V2Compressor.encode_single ⟨comp?⟩ an spec)) spec = .ok (some an) := by
  obtain ⟨hdtn, hlayn, hshn, heln⟩ := hgn
  cases comp? with
  | some c =>
      have hb : V2Compressor.encode_single ⟨some c⟩ an spec = c.encodeFn an := by
        simp [V2Compressor.encode_single, hlayn]
      have hraw : rawDecodedArray ⟨some c⟩ (c.encodeFn an) = an := hc c rfl
      rw [hb, decode_single_name_eq ⟨some c⟩ (c.encodeFn an) spec (by rw [hraw, hdtn]), hraw]
  | none =>
      have hb : V2Compressor.encode_single ⟨none⟩ an spec = an.data.flatten := by
        show an.tobytesA = an.data.flatten
        simp [NDArray.tobytesA, hlayn]
      have hblen : an.data.flatten.length = an.data.length * spec.dtype.itemsize :=
        flatten_length_uniform _ _ heln
      rw [hb]
      by_cases hn : spec.dtype.name = "uint8"
      · have hi1 : spec.dtype.itemsize = 1 := hu8 hn
        have hspecdt : spec.dtype = uint8dt := dtypeExt hn hi1
        have heq : rawDecodedArray ⟨none⟩ an.data.flatten = an := by
          apply ndarrayExt
          · show uint8dt = an.dtype
            rw [hdtn, hspecdt]
          · show [an.data.flatten.length] = an.shape
            rw [hblen, hi1, Nat.mul_one]
            exact hshn.symm
          · exact hlayn.symm
          · show (an.data.flatten.map fun x => [x]) = an.data
            apply map_singleton_flatten
            intro e he
            rw [heln e he, hi1]
        rw [decode_single_name_eq ⟨none⟩ an.data.flatten spec (by rw [heq, hdtn]), heq]
      · have hname : (rawDecodedArray ⟨none⟩ an.data.flatten).dtype.name ≠ spec.dtype.name := by
          show "uint8" ≠ spec.dtype.name
          exact fun h => hn h.symm
        have hview : (rawDecodedArray ⟨none⟩ an.data.flatten).view spec.dtype = .ok an := by
          unfold NDArray.view
          rw [if_neg hitem]
          have hsne : (rawDecodedArray ⟨none⟩ an.data.flatten).shape ≠ [] := by
            show [an.data.flatten.length] ≠ []
            exact List.cons_ne_nil _ _
          rw [if_neg hsne]
          have hmod : (rawDecodedArray ⟨none⟩ an.data.flatten).shape.getLastD 0
              * (rawDecodedArray ⟨none⟩ an.data.flatten).dtype.itemsize
                % spec.dtype.itemsize = 0 := by
            show an.data.flatten.length * 1 % spec.dtype.itemsize = 0
            rw [hblen, Nat.mul_one, Nat.mul_mod_left]
          rw [if_neg (not_not_intro hmod)]
          congr 1
          apply ndarrayExt
          · show spec.dtype = an.dtype
            exact hdtn.symm
          · show [] ++ [an.data.flatten.length * 1 / spec.dtype.itemsize] = an.shape
            rw [List.nil_append, hblen, Nat.mul_one,
              Nat.mul_div_cancel _ (Nat.pos_of_ne_zero hitem)]
            exact hshn.symm
          · exact hlayn.symm
          · show chunkBytes spec.dtype.itemsize
                ((an.data.flatten.map fun x => [x]).flatten) = an.data
            rw [flatten_map_singleton]
            exact chunkBytes_flatten_eq _ hitem _ heln
        rw [decode_single_name_ne ⟨none⟩ an.data.flatten spec hname, hview]
        rfl

theorem filter_stage_roundtrip (fs : List FilterCodec) (chunk : NDArray) (spec : ArraySpec)
    (hdt : chunk.dtype = spec.dtype) (hsh : chunk.shape = spec.shape)
    (hlen : chunk.data.length = chunk.shape.prod)
    (helem : ∀ e ∈ chunk.data, e.length = spec.dtype.itemsize)
    (hfp : ∀ f ∈ fs, ∀ x, GoodArr spec.dtype x → GoodArr spec.dtype (f.encodeFn x))
    (hfi : ∀ f ∈ fs, ∀ x, GoodArr spec.dtype x → f.decodeFn (f.encodeFn x) = x) :
    ∃ r, V2Filters.decode_single ⟨some fs⟩ (applyFilters fs (chunk.ravel spec.order)) spec = .ok r
      ∧ r.data = chunk.data ∧ r.shape = chunk.shape ∧ r.dtype = chunk.dtype := by
  have hg0 : GoodArr spec.dtype (chunk.ravel spec.order) :=
    goodArr_ravel spec.dtype chunk spec.order hdt hlen helem
  have hinv : applyInvFilters fs (applyFilters fs (chunk.ravel spec.order))
      = chunk.ravel spec.order :=
    applyInvFilters_applyFilters spec.dtype fs (chunk.ravel spec.order) hfp hfi hg0
  have hd : V2Filters.decode_single ⟨some fs⟩ (applyFilters fs (chunk.ravel spec.order)) spec
      = if (chunk.ravel spec.order).shape ≠ spec.shape then
          (chunk.ravel spec.order).reshape spec.shape spec.order
        else .ok (chunk.ravel spec.order) := by
    show (if (applyInvFiltersOpt (some fs) (applyFilters fs (chunk.ravel spec.order))).shape
            ≠ spec.shape then
          (applyInvFiltersOpt (some fs)
            (applyFilters fs (chunk.ravel spec.order))).reshape spec.shape spec.order
        else .ok (applyInvFiltersOpt (some fs) (applyFilters fs (chunk.ravel spec.order)))) = _
    rw [show applyInvFiltersOpt (some fs) (applyFilters fs (chunk.ravel spec.order))
        = chunk.ravel spec.order from hinv]
  rw [hd]
  by_cases hsc : (chunk.ravel spec.order).shape = spec.shape
  · rw [if_neg (not_not_intro hsc)]
    have hchunk1d : chunk.shape = [chunk.shape.prod] := by
      nth_rewrite 1 [hsh]
      exact hsc.symm
    refine ⟨chunk.ravel spec.order, rfl, ?_, ?_, rfl⟩
    · show toListO spec.order chunk.shape chunk.data = chunk.data
      rw [hchunk1d]
      exact toListO_onedim spec.order _ chunk.data hlen
    · show [chunk.shape.prod] = chunk.shape
      exact hchunk1d.symm
  · rw [if_pos hsc]
    have hprod : spec.shape.prod = (chunk.ravel spec.order).shape.prod := by
      show spec.shape.prod = [chunk.shape.prod].prod
      rw [← hsh]
      simp
    unfold NDArray.reshape
    rw [if_neg (not_not_intro hprod)]
    have h1d : toListO spec.order (chunk.ravel spec.order).shape (chunk.ravel spec.order).data
        = (chunk.ravel spec.order).data := by
      show toListO spec.order [chunk.shape.prod] (chunk.ravel spec.order).data = _
      exact toListO_onedim spec.order _ _
        (toListO_length spec.order chunk.shape chunk.data hlen)
    refine ⟨_, rfl, ?_, hsh.symm, rfl⟩
    show fromListO spec.order spec.shape
        (toListO spec.order (chunk.ravel spec.order).shape (chunk.ravel spec.order).data)
      = chunk.data
    rw [h1d]
    show fromListO spec.order spec.shape (toListO spec.order chunk.shape chunk.data) = chunk.data
    rw [hsh] at hlen ⊢
    exact fromListO_toListO spec.order spec.shape chunk.data hlen

/-- Claim C1 (amended): for every chunk matching its spec (dtype, shape,
well-formed element bytes, nonzero itemsize with a truthful `uint8` name),
every filter list whose forward transforms preserve the invariant of being
one-dimensional C-contiguous arrays of the spec's dtype and whose inverse
transforms undo the forward ones on such arrays, and every optional
compressor whose decode undoes its encode on such arrays, decoding the
encoded chunk reproduces the chunk's element values, shape and dtype. -/
theorem C1_roundtrip (fs : List FilterCodec) (comp? : Option CompCodec)
    (chunk : NDArray) (spec : ArraySpec)
    (hdt : chunk.dtype = spec.dtype)
    (hsh : chunk.shape = spec.shape)
    (hlen : chunk.data.length = chunk.shape.prod)
    (helem : ∀ e ∈ chunk.data, e.length = spec.dtype.itemsize)
    (hitem : spec.dtype.itemsize ≠ 0)
    (hu8 : spec.dtype.name = uint8dt.name → spec.dtype.itemsize = uint8dt.itemsize)
    (hfp : ∀ f ∈ fs, ∀ x, GoodArr spec.dtype x → GoodArr spec.dtype (f.encodeFn x))
    (hfi : ∀ f ∈ fs, ∀ x, GoodArr spec.dtype x → f.decodeFn (f.encodeFn x) = x)
    (hc : ∀ c, comp? = some c → ∀ x, GoodArr spec.dtype x → c.decodeFn (c.encodeFn x) = x) :
    ∃ b r, fullEncode ⟨some fs⟩ ⟨comp?⟩ chunk spec = .ok b
      ∧ fullDecode ⟨some fs⟩ ⟨comp?⟩ (some b) spec = .ok (some r)
      ∧ r.data = chunk.data ∧ r.shape = chunk.shape ∧ r.dtype = chunk.dtype := by
  have hgn : GoodArr spec.dtype (applyFilters fs (chunk.ravel spec.order)) :=
    goodArr_applyFilters spec.dtype fs (chunk.ravel spec.order) hfp
      (goodArr_ravel spec.dtype chunk spec.order hdt hlen helem)
  have hstage := compressor_stage_roundtrip comp? spec
    (applyFilters fs (chunk.ravel spec.order)) hitem hu8 hgn
    (fun c hceq => hc c hceq _ hgn)
  obtain ⟨r, hr, h1, h2, h3⟩ :=
    filter_stage_roundtrip fs chunk spec hdt hsh hlen helem hfp hfi
  refine ⟨V2Compressor.encode_single ⟨comp?⟩
    (applyFilters fs (chunk.ravel spec.order)) spec, r, rfl, ?_, h1, h2, h3⟩
  show (V2Compressor.decode_single ⟨comp?⟩
      (some (V2Compressor.encode_single ⟨comp?⟩
        (applyFilters fs (chunk.ravel spec.order)) spec)) spec).bind _ = _
  rw [hstage]
  show (V2Filters.decode_single ⟨some fs⟩
      (applyFilters fs (chunk.ravel spec.order)) spec).bind (fun x => .ok (some x))
    = .ok (some r)
  rw [hr]
  rfl

/-- Witness for C1 at concrete inputs: a two-element `int16` chunk with a
data-reversing filter and no compressor encodes and decodes back to
itself. -/
theorem C1_roundtrip_witness :
    ∃ b r, fullEncode ⟨some [revFilter]⟩ ⟨none⟩ w1chunk w1spec = .ok b
      ∧ fullDecode ⟨some [revFilter]⟩ ⟨none⟩ (some b) w1spec = .ok (some r)
      ∧ r.data = w1chunk.data ∧ r.shape = w1chunk.shape ∧ r.dtype = w1chunk.dtype :=
  C1_roundtrip [revFilter] none w1chunk w1spec rfl rfl (by decide) (by decide)
    (by decide) (by decide)
    (by
      intro f hf x hx
      rw [List.mem_singleton] at hf
      subst hf
      obtain ⟨hx1, hx2, hx3, hx4⟩ := hx
      refine ⟨hx1, hx2, ?_, ?_⟩
      · show x.shape = [x.data.reverse.length]
        rw [List.length_reverse]
        exact hx3
      · intro e he
        have he2 : e ∈ x.data.reverse := he
        rw [List.mem_reverse] at he2
        exact hx4 e he2)
    (by
      intro f hf x hx
      rw [List.mem_singleton] at hf
      subst hf
      show { x with data := x.data.reverse.reverse } = x
      rw [List.reverse_reverse])
    (fun c hceq => Option.noConfusion hceq)

/-- Counterexample to claim C1 as stated: a filter whose forward and
inverse transforms are mutual inverses on all arrays (they swap the
`float32` and `int32` dtype labels) breaks the pipeline round-trip,
because `V2Compressor.decode_single` bit-casts to the spec dtype before
the inverse filters run; the decoded result comes back labeled `int32`
for a `float32` chunk. -/
theorem C1_counterexample :
    ¬ (∀ (fs : List FilterCodec) (comp? : Option CompCodec)
          (chunk : NDArray) (spec : ArraySpec),
        chunk.dtype = spec.dtype → chunk.shape = spec.shape →
        chunk.data.length = chunk.shape.prod →
        (∀ e ∈ chunk.data, e.length = spec.dtype.itemsize) →
        spec.dtype.itemsize ≠ 0 →
        (spec.dtype.name = uint8dt.name → spec.dtype.itemsize = uint8dt.itemsize) →
        (∀ f ∈ fs, ∀ x, f.decodeFn (f.encodeFn x) = x ∧ f.encodeFn (f.decodeFn x) = x) →
        (∀ c, comp? = some c → ∀ x, c.decodeFn (c.encodeFn x) = x) →
        ∃ b r, fullEncode ⟨some fs⟩ ⟨comp?⟩ chunk spec = .ok b
          ∧ fullDecode ⟨some fs⟩ ⟨comp?⟩ (some b) spec = .ok (some r)
          ∧ r.data = chunk.data ∧ r.shape = chunk.shape ∧ r.dtype = chunk.dtype) := by
  intro hclaim
  obtain ⟨b, r, hb, hr, hdata, hshape, hdtype⟩ :=
    hclaim [cexF] none cexChunk cexSpec rfl rfl (by decide) (by decide) (by decide) (by decide)
      (by
        intro f hf x
        rw [List.mem_singleton] at hf
        subst hf
        constructor <;>
          · show { x with dtype := swapDt (swapDt x.dtype) } = x
            rw [swapDt_invol])
      (fun c hceq => Option.noConfusion hceq)
  have hb2 : fullEncode ⟨some [cexF]⟩ ⟨none⟩ cexChunk cexSpec = .ok [0, 0, 0, 0] := rfl
  rw [hb2] at hb
  injection hb with hbeq
  subst hbeq
  have hr2 : fullDecode ⟨some [cexF]⟩ ⟨none⟩ (some [0, 0, 0, 0]) cexSpec
      = .ok (some ⟨i32dt, [1], .C, [[0, 0, 0, 0]]⟩) := rfl
  rw [hr2] at hr
  injection hr with hreq
  injection hreq with hreq2
  rw [← hreq2] at hdtype
  exact absurd hdtype (by decide)
